import Mathlib

/-!
# GhostComm transport codec — verification of the specification claims

Shallow embedding of the GhostComm binary-to-text transport core:

* the 32768-symbol alphabet (`generateAlphabet`, `src/index.js` lines 17-45),
* the 15-bit bit-pack codec (`encodeBase32768` / `decodeBase32768`,
  `src/index.js` lines 59-108),
* the truncated base-36 checksum (`calculateChecksum`,
  `src/services/chunker.ts` lines 152-160 and `src/index.js` lines 50-57),
* the volume chunker (`createVolumes`, `src/services/chunker.ts` lines 7-27),
* the fragment extractors (`extractAllChunks`, `src/services/chunker.ts`
  lines 32-78; `extractChunks`, `src/index.js` lines 168-184),
* the receiver accumulation and reassembly decision
  (`handleDecode`, `src/index.js` lines 260-278; `processText`,
  `src/components/DecodingView` lines 30-54).

Strings are modelled as lists of UTF-16 code units (`List Nat`), byte
buffers as lists of bytes (`List Nat`, elements `< 256`), and JavaScript
32-bit signed wraparound (`|0`, `& hash`) as `wrap32 : Int → Int`.
-/

namespace GhostComm

/-! ## Alphabet generation (`src/index.js` lines 17-45)

The source builds one string from contiguous code-point ranges:
printable ASCII 33..126 without the delimiter `:` (58), Latin-1
Supplement 161..255, Greek and Coptic 0x370..0x3FF, Cyrillic
0x400..0x4FF, then CJK Unified Ideographs from 0x4E00 one code point at
a time until 32768 characters are collected, and truncates to 32768. -/

/-- Printable ASCII 33..126 excluding the protocol separator `:` (58). -/
def asciiPart : List Nat := (((List.range 94).map (· + 33)).filter (fun c => c ≠ 58))

/-- Latin-1 Supplement 161..255. -/
def latin1Part : List Nat := (List.range 95).map (· + 161)

/-- Greek and Coptic 0x370..0x3FF. -/
def greekPart : List Nat := (List.range 144).map (· + 0x370)

/-- Cyrillic 0x400..0x4FF. -/
def cyrillicPart : List Nat := (List.range 256).map (· + 0x400)

/-- The source's `while (chars.length < 32768) chars += String.fromCharCode(currentCJK++)`:
append consecutive code points starting at `c` until the list reaches 32768 entries. -/
def fillCJK (chars : List Nat) (c : Nat) : List Nat :=
  if chars.length < 32768 then fillCJK (chars ++ [c]) (c + 1) else chars
termination_by 32768 - chars.length
decreasing_by simp; omega

/-- `generateAlphabet` from `src/index.js`: the concatenated ranges, CJK-filled,
truncated to exactly 32768 entries. -/
def generateAlphabet : List Nat :=
  (fillCJK (asciiPart ++ latin1Part ++ greekPart ++ cyrillicPart) 0x4E00).take 32768

/-- `const ALPHABET = generateAlphabet()`. -/
def ALPHABET : List Nat := generateAlphabet

/-- The CJK filler segment of the alphabet, in closed form. -/
def cjkPart : List Nat := (List.range 32180).map (· + 0x4E00)

/-- `ALPHABET[i]` — JavaScript string indexing (defined for `i < 32768`). -/
def symbolOf (i : Nat) : Nat := ALPHABET.getD i 0

/-- First index of `c` in a list, or `none`: the lookup of `DECODE_MAP`
(`src/index.js` line 44).  The map is built from `(c, i)` pairs; since the
alphabet is duplicate-free (proved below) first-match and last-match agree. -/
def idxFind (c : Nat) : List Nat → Option Nat
  | [] => none
  | a :: t => if a = c then some 0 else (idxFind c t).map (· + 1)

/-- `DECODE_MAP.get c` (`src/index.js` lines 44, 89). -/
def indexOfA (c : Nat) : Option Nat := idxFind c ALPHABET

/-! ## Bit-pack codec (`src/index.js` lines 59-108)

The JavaScript bit buffer is a 32-bit signed integer; every bit ever read
from it sits below bit 22, so its value modulo `2 ^ 32` determines the
behaviour, and the buffer is modelled as a `Nat` reduced modulo `2 ^ 32`
at each write, exactly where JavaScript's `<<`/`|` wrap. -/

/-- The `while (bitsInBuffer >= w)` extraction loop common to encoder
(`w = 15`) and decoder (`w = 8`): pop the top `w` bits while at least `w`
remain.  The loop runs `bits / w` times; the fuel argument `bits` bounds it
(each pass removes `w ≥ 1` bits). -/
def drainGo (w buffer : Nat) : Nat → Nat → List Nat × Nat
  | 0, bits => ([], bits)
  | fuel + 1, bits =>
    if 0 < w ∧ w ≤ bits then
      let bits' := bits - w
      let d := drainGo w buffer fuel bits'
      ((buffer / 2 ^ bits' % 2 ^ w) :: d.1, d.2)
    else ([], bits)

/-- Pop `w`-bit groups from the top of the buffer while `w ≤ bits`. -/
def drain (w buffer bits : Nat) : List Nat × Nat := drainGo w buffer bits bits

/-- The encoder's byte loop (`src/index.js` lines 70-78): shift each byte of
`combined` into the buffer and emit 15-bit indices while available, then
(`lines 79-82`) left-justify and emit any remaining bits as a final index. -/
def packBytes : List Nat → Nat → Nat → List Nat
  | [], buffer, bits =>
    if 0 < bits then [buffer * 2 ^ (15 - bits) % 2 ^ 15] else []
  | byte :: rest, buffer, bits =>
    let buffer' := (buffer * 2 ^ 8 + byte) % 2 ^ 32
    let d := drain 15 buffer' (bits + 8)
    d.1 ++ packBytes rest buffer' d.2

/-- The decoder's index loop (`src/index.js` lines 95-102): shift each 15-bit
index into the buffer and emit bytes while at least 8 bits remain; leftover
bits are dropped. -/
def unpackIdxs : List Nat → Nat → Nat → List Nat
  | [], _, _ => []
  | idx :: rest, buffer, bits =>
    let buffer' := (buffer * 2 ^ 15 + idx) % 2 ^ 32
    let d := drain 8 buffer' (bits + 15)
    d.1 ++ unpackIdxs rest buffer' d.2

/-- `view.setUint32(0, data.length)` (`src/index.js` lines 63-65): the 4-byte
big-endian length header. -/
def header32 (n : Nat) : List Nat :=
  [n / 2 ^ 24 % 2 ^ 8, n / 2 ^ 16 % 2 ^ 8, n / 2 ^ 8 % 2 ^ 8, n % 2 ^ 8]

/-- `encodeBase32768` (`src/index.js` lines 59-84): prepend the big-endian
length header, pack the bytes into 15-bit groups, and map each group to its
alphabet symbol. -/
def encodeBase32768 (data : List Nat) : List Nat :=
  (packBytes (header32 data.length ++ data) 0 0).map symbolOf

/-- `decodeBase32768` (`src/index.js` lines 86-108): keep the alphabet
indices of recognised characters (others are skipped), unpack to bytes,
return empty on fewer than 4 bytes, else slice out the payload declared by
the big-endian length header. -/
def decodeBase32768 (s : List Nat) : List Nat :=
  let indices := s.filterMap indexOfA
  let out := unpackIdxs indices 0 0
  if out.length < 4 then []
  else (out.drop 4).take
    (out.getD 0 0 * 2 ^ 24 + out.getD 1 0 * 2 ^ 16 + out.getD 2 0 * 2 ^ 8 + out.getD 3 0)

/-- Big-endian value of a list of `w`-bit groups (each taken mod `2 ^ w`):
the abstract meaning of a packed bit stream, used to state the codec
invariants. -/
def beVal (w : Nat) : List Nat → Nat
  | [] => 0
  | d :: l => (d % 2 ^ w) * 2 ^ (w * l.length) + beVal w l

/-! ## Checksum (`src/services/chunker.ts` lines 152-160, `src/index.js` lines 50-57)

`hash = ((hash << 5) - hash) + charCode; hash |= 0` over 32-bit signed
wraparound, then `Math.abs(hash).toString(36).substring(0, 4).toUpperCase()`. -/

/-- JavaScript `| 0` / `& hash`: wrap an integer to the signed 32-bit range. -/
def wrap32 (z : Int) : Int := (z + 2 ^ 31) % 2 ^ 32 - 2 ^ 31

/-- One checksum step: `((hash << 5) - hash) + charCode`, wrapped to 32 bits
(the `<< 5` itself already wraps in JavaScript). -/
def checksumStep (h : Int) (c : Nat) : Int := wrap32 (wrap32 (h * 32) - h + c)

/-- Code unit of a base-36 digit as produced by `Number.toString(36)`
(`0`-`9` then lowercase `a`-`z`). -/
def base36Char (d : Nat) : Nat := if d < 10 then 48 + d else 87 + d

/-- Base-36 digit expansion, most significant first; the fuel argument `n`
bounds the division chain (`n / 36 < n`). -/
def toBase36Go : Nat → Nat → List Nat
  | 0, n => [base36Char (n % 36)]
  | fuel + 1, n =>
    if n < 36 then [base36Char n] else toBase36Go fuel (n / 36) ++ [base36Char (n % 36)]

/-- `n.toString(36)` for a natural number. -/
def toBase36 (n : Nat) : List Nat := toBase36Go n n

/-- `String.toUpperCase` on code units (only ASCII letters occur here). -/
def toUpper (l : List Nat) : List Nat :=
  l.map (fun c => if 97 ≤ c ∧ c ≤ 122 then c - 32 else c)

/-- `calculateChecksum` — fold the wraparound hash, then
`Math.abs(hash).toString(36).substring(0, 4).toUpperCase()`. -/
def calculateChecksum (data : List Nat) : List Nat :=
  toUpper ((toBase36 (data.foldl checksumStep 0).natAbs).take 4)

/-- `n.toString(10)` for a natural number (volume header fields). -/
def toDecGo : Nat → Nat → List Nat
  | 0, n => [48 + n % 10]
  | fuel + 1, n => if n < 10 then [48 + n] else toDecGo fuel (n / 10) ++ [48 + n % 10]

/-- Decimal rendering of `total` and `index` in the volume header. -/
def toDec (n : Nat) : List Nat := toDecGo n n

/-! ## Text utilities for the extractors

`String.split`, `String.trim`, array joining and `parseInt` as used by
`extractChunks` / `extractAllChunks`. -/

/-- The JavaScript whitespace class recognised by `String.trim`. -/
def isJsWs (c : Nat) : Bool :=
  ([9, 10, 11, 12, 13, 32, 160, 0x1680, 0x2000, 0x2001, 0x2002, 0x2003, 0x2004,
    0x2005, 0x2006, 0x2007, 0x2008, 0x2009, 0x200A, 0x2028, 0x2029, 0x202F, 0x205F,
    0x3000, 0xFEFF] : List Nat).contains c

/-- `s.trim()`. -/
def trimJs (l : List Nat) : List Nat :=
  ((l.dropWhile isJsWs).reverse.dropWhile isJsWs).reverse

/-- Value of a string of decimal digit code units. -/
def digitsVal (ds : List Nat) : Nat := ds.foldl (fun a c => a * 10 + (c - 48)) 0

/-- `parseInt(s)` (radix 10): skip whitespace, optional sign, read leading
decimal digits, `NaN` (`none`) when no digit follows.  The JavaScript `0x`
hexadecimal autodetection branch is not modelled — the header fields parsed
here are decimal. -/
def parseIntJs (l : List Nat) : Option Int :=
  let t := l.dropWhile isJsWs
  match t with
  | 45 :: rest =>
    let ds := rest.takeWhile (fun c => decide (48 ≤ c ∧ c ≤ 57))
    if ds.isEmpty then none else some (-(digitsVal ds : Int))
  | 43 :: rest =>
    let ds := rest.takeWhile (fun c => decide (48 ≤ c ∧ c ≤ 57))
    if ds.isEmpty then none else some ((digitsVal ds : Int))
  | _ =>
    let ds := t.takeWhile (fun c => decide (48 ≤ c ∧ c ≤ 57))
    if ds.isEmpty then none else some ((digitsVal ds : Int))

/-- `s.split(":")` — fields between occurrences of the single character `c`. -/
def splitOnChar (c : Nat) : List Nat → List (List Nat)
  | [] => [[]]
  | a :: rest =>
    if a = c then [] :: splitOnChar c rest
    else
      match splitOnChar c rest with
      | [] => [[a]]
      | f :: r => (a :: f) :: r

/-- `text.split("GC:")` — fields between non-overlapping occurrences of the
three-character marker, scanned left to right. -/
def splitOnGC : List Nat → List (List Nat)
  | 71 :: 67 :: 58 :: rest => [] :: splitOnGC rest
  | a :: rest =>
    match splitOnGC rest with
    | [] => [[a]]
    | f :: r => (a :: f) :: r
  | [] => [[]]

/-! ## Volumes, extraction and the receiver chunk set

`Chunk` (`src/types.ts`); `total` and `index` come from `parseInt` and are
`Option Int` (`none` models `NaN`). -/

structure Chunk where
  type : List Nat
  total : Option Int
  index : Option Int
  checksum : List Nat
  payload : List Nat
deriving DecidableEq

/-- `createVolumes` (`src/services/chunker.ts` lines 7-27): split the encoded
text into `⌈len/effective⌉` payloads of `maxChars - 40` symbols and prefix
each with `GC:{type}:{total}:{i}:{checksum}:`; `none` models the thrown
`"Character limit too low"` configuration error when the effective payload
size is not positive. -/
def createVolumes (type : List Nat) (encodedText : List Nat) (maxChars : Nat) :
    Option (List (List Nat)) :=
  if maxChars ≤ 40 then none
  else
    let eff := maxChars - 40
    let total := (encodedText.length + eff - 1) / eff
    some ((List.range total).map (fun i =>
      [71, 67, 58] ++ type ++ [58] ++ toDec total ++ [58] ++ toDec i ++ [58]
        ++ calculateChecksum ((encodedText.drop (i * eff)).take eff) ++ [58]
        ++ (encodedText.drop (i * eff)).take eff))

/-- The payload field of a volume string: everything after the fifth `:`
(rejoined on `:`, as the extractors do). -/
def volumePayload (v : List Nat) : List Nat :=
  List.intercalate [58] ((splitOnChar 58 v).drop 5)

/-- `extractAllChunks` (`src/services/chunker.ts` lines 32-78): split on
`"GC:"`, skip blank segments, require 5 `:`-separated fields, clean the
payload to the CJK code-point range `[0x4E00, 0x4E00 + 32768)`, and keep the
candidate only when the payload is non-empty and the recomputed checksum
matches the declared one. -/
def extractAllChunks (text : List Nat) : List Chunk :=
  (splitOnGC text).filterMap (fun segment =>
    if (trimJs segment).isEmpty then none
    else
      let parts := splitOnChar 58 segment
      if parts.length < 5 then none
      else
        let total := parseIntJs (parts.getD 1 [])
        let index := parseIntJs (parts.getD 2 [])
        let checksum := parts.getD 3 []
        let rawPayload := List.intercalate [58] (parts.drop 4)
        let cleanedPayload := rawPayload.filter
          (fun code => decide (0x4E00 ≤ code ∧ code < 0x4E00 + 32768))
        if 0 < cleanedPayload.length ∧ calculateChecksum cleanedPayload = checksum then
          some ⟨parts.getD 0 [], total, index, checksum, cleanedPayload⟩
        else none)

/-- `extractChunks` (`src/index.js` lines 168-184): as above but segments are
pre-filtered by `s.trim()`, the payload is cleaned against `ALPHABET_SET`,
and an empty cleaned payload is not rejected by itself. -/
def extractChunks (text : List Nat) : List Chunk :=
  ((splitOnGC text).filter (fun seg => !(trimJs seg).isEmpty)).filterMap (fun segment =>
    let parts := splitOnChar 58 segment
    if parts.length < 5 then none
    else
      let total := parseIntJs (parts.getD 1 [])
      let index := parseIntJs (parts.getD 2 [])
      let checksum := parts.getD 3 []
      let rawPayload := List.intercalate [58] (parts.drop 4)
      let cleanedPayload := rawPayload.filter (fun ch => decide (ch ∈ ALPHABET))
      if calculateChecksum cleanedPayload = checksum then
        some ⟨parts.getD 0 [], total, index, checksum, cleanedPayload⟩
      else none)

/-- `newMap.set(k, v)` on a JavaScript `Map` kept in insertion order: an
existing key keeps its position and gets the new value, a new key is
appended. -/
def mapSet (m : List (Option Int × Chunk)) (k : Option Int) (v : Chunk) :
    List (Option Int × Chunk) :=
  if m.any (fun p => decide (p.1 = k)) then
    m.map (fun p => if p.1 = k then (k, v) else p)
  else m ++ [(k, v)]

/-- `chunks.forEach(c => newMap.set(c.index, c))` (`src/index.js` line 265,
`DecodingView` line 40): insert every extracted candidate keyed by its
index. -/
def insertAll (m : List (Option Int × Chunk)) (cs : List Chunk) :
    List (Option Int × Chunk) :=
  cs.foldl (fun acc c => mapSet acc c.index c) m

/-- `newMap.get(k)`. -/
def lookupCS (m : List (Option Int × Chunk)) (k : Option Int) : Option Chunk :=
  (m.find? (fun p => decide (p.1 = k))).map (·.2)

/-- `newMap.size >= first.total` — the receiver's completeness test; any
comparison against `NaN` is false. -/
def sizeGeTotal (n : Nat) (t : Option Int) : Bool :=
  match t with
  | none => false
  | some v => decide (v ≤ (n : Int))

/-- Sort key of `(a, b) => a.index - b.index`; a `NaN` index (whose JavaScript
comparator behaviour is unspecified) is keyed as 0. -/
def idxKey (c : Chunk) : Int := c.index.getD 0

/-- Stable insertion into an index-sorted list. -/
def insertByIndex (c : Chunk) : List Chunk → List Chunk
  | [] => [c]
  | d :: t => if idxKey c ≤ idxKey d then c :: d :: t else d :: insertByIndex c t

/-- `Array.from(values).sort((a, b) => a.index - b.index)` — a stable sort by
index. -/
def sortByIndex (l : List Chunk) : List Chunk := l.foldr insertByIndex []

/-- `handleDecode`'s reassembly decision (`src/index.js` lines 268-272): take
the first stored entry, compare the entry count against its declared total,
and on success decode the payloads joined in ascending index order. -/
def tryReassemble : List (Option Int × Chunk) → Option (List Nat)
  | [] => none
  | (k, first) :: rest =>
    if sizeGeTotal ((k, first) :: rest).length first.total then
      some (decodeBase32768
        (((sortByIndex (((k, first) :: rest).map (·.2))).map (·.payload)).flatten))
    else none

/-- `processText`'s completeness decision (`DecodingView` lines 33-47): extract
with `extractAllChunks`, insert everything, and report complete when the map
size reaches the total declared by the first freshly extracted chunk. -/
def processTextComplete (m : List (Option Int × Chunk)) (text : List Nat) : Bool :=
  match extractAllChunks text with
  | [] => false
  | first :: rest => sizeGeTotal (insertAll m (first :: rest)).length first.total

/-- `s'` arises from `s` by inserting, at arbitrary positions, characters that
are not in the alphabet. -/
inductive InsertedJunk : List Nat → List Nat → Prop
  | nil : InsertedJunk [] []
  | keep (c : Nat) {s t : List Nat} : InsertedJunk s t → InsertedJunk (c :: s) (c :: t)
  | junk (c : Nat) {s t : List Nat} : indexOfA c = none → InsertedJunk s t →
      InsertedJunk s (c :: t)

end GhostComm

namespace GhostComm

/-! ### Structural facts about the alphabet -/

theorem fillCJK_eq_aux : ∀ n (l : List Nat) (c : Nat), 32768 - l.length = n →
    fillCJK l c = l ++ (List.range (32768 - l.length)).map (· + c) := by
  intro n
  induction n using Nat.strong_induction_on with
  | _ n ih =>
    intro l c hn
    rw [fillCJK]
    by_cases h : l.length < 32768
    · rw [if_pos h]
      have hlen : (l ++ [c]).length = l.length + 1 := by simp
      have hrec := ih (32768 - (l.length + 1)) (by omega) (l ++ [c]) (c + 1) (by omega)
      rw [hrec, hlen]
      have hm : 32768 - l.length = (32768 - (l.length + 1)) + 1 := by omega
      rw [hm, List.range_succ_eq_map]
      simp only [List.map_cons, List.map_map]
      have hmc : ((List.range (32768 - (l.length + 1))).map ((· + c) ∘ Nat.succ))
          = (List.range (32768 - (l.length + 1))).map (· + (c + 1)) := by
        apply List.map_congr_left
        intro x _
        simp only [Function.comp_apply]
        omega
      rw [hmc]
      simp
    · rw [if_neg h]
      have : 32768 - l.length = 0 := by omega
      simp [this]

theorem fillCJK_eq (l : List Nat) (c : Nat) :
    fillCJK l c = l ++ (List.range (32768 - l.length)).map (· + c) :=
  fillCJK_eq_aux (32768 - l.length) l c rfl

theorem asciiPart_length : asciiPart.length = 93 := by decide

theorem latin1Part_length : latin1Part.length = 95 := by
  simp [latin1Part]

theorem greekPart_length : greekPart.length = 144 := by
  simp [greekPart]

theorem cyrillicPart_length : cyrillicPart.length = 256 := by
  simp [cyrillicPart]

theorem cjkPart_length : cjkPart.length = 32180 := by
  simp [cjkPart]

/-- The alphabet in closed form: the four named ranges followed by the
32180-entry CJK filler. -/
theorem ALPHABET_eq :
    ALPHABET = asciiPart ++ latin1Part ++ greekPart ++ cyrillicPart ++ cjkPart := by
  have hbase : (asciiPart ++ latin1Part ++ greekPart ++ cyrillicPart).length = 588 := by
    simp [asciiPart_length, latin1Part_length, greekPart_length, cyrillicPart_length]
  have h := fillCJK_eq (asciiPart ++ latin1Part ++ greekPart ++ cyrillicPart) 0x4E00
  rw [hbase] at h
  have hk : (32768 : Nat) - 588 = 32180 := by norm_num
  rw [hk] at h
  have hfull : (fillCJK (asciiPart ++ latin1Part ++ greekPart ++ cyrillicPart)
      0x4E00).length = 32768 := by
    rw [h]
    simp only [List.length_append, List.length_map, List.length_range]
    simp only [List.length_append] at hbase
    omega
  unfold ALPHABET generateAlphabet
  rw [h]
  have hcj : asciiPart ++ latin1Part ++ greekPart ++ cyrillicPart ++
      (List.range 32180).map (· + 0x4E00)
      = asciiPart ++ latin1Part ++ greekPart ++ cyrillicPart ++ cjkPart := by
    rw [show cjkPart = (List.range 32180).map (· + 0x4E00) from rfl]
  rw [hcj]
  apply List.take_of_length_le
  have : (asciiPart ++ latin1Part ++ greekPart ++ cyrillicPart ++ cjkPart).length
      = 588 + 32180 := by
    simp only [List.length_append, cjkPart_length]
    simp only [List.length_append] at hbase
    omega
  omega

theorem ALPHABET_length : ALPHABET.length = 32768 := by
  rw [ALPHABET_eq]
  simp only [List.length_append, asciiPart_length, latin1Part_length, greekPart_length,
    cyrillicPart_length, cjkPart_length]

theorem mem_asciiPart {c : Nat} : c ∈ asciiPart ↔ (33 ≤ c ∧ c ≤ 126 ∧ c ≠ 58) := by
  simp only [asciiPart, List.mem_filter, List.mem_map, List.mem_range, decide_eq_true_eq]
  constructor
  · rintro ⟨⟨a, ha, rfl⟩, hne⟩
    omega
  · rintro ⟨h1, h2, h3⟩
    exact ⟨⟨c - 33, by omega, by omega⟩, by omega⟩

theorem mem_latin1Part {c : Nat} : c ∈ latin1Part ↔ (161 ≤ c ∧ c ≤ 255) := by
  simp only [latin1Part, List.mem_map, List.mem_range]
  constructor
  · rintro ⟨a, ha, rfl⟩; omega
  · rintro ⟨h1, h2⟩; exact ⟨c - 161, by omega, by omega⟩

theorem mem_greekPart {c : Nat} : c ∈ greekPart ↔ (880 ≤ c ∧ c ≤ 1023) := by
  simp only [greekPart, List.mem_map, List.mem_range]
  constructor
  · rintro ⟨a, ha, rfl⟩; omega
  · rintro ⟨h1, h2⟩; exact ⟨c - 880, by omega, by omega⟩

theorem mem_cyrillicPart {c : Nat} : c ∈ cyrillicPart ↔ (1024 ≤ c ∧ c ≤ 1279) := by
  simp only [cyrillicPart, List.mem_map, List.mem_range]
  constructor
  · rintro ⟨a, ha, rfl⟩; omega
  · rintro ⟨h1, h2⟩; exact ⟨c - 1024, by omega, by omega⟩

theorem mem_cjkPart {c : Nat} : c ∈ cjkPart ↔ (19968 ≤ c ∧ c < 52148) := by
  simp only [cjkPart, List.mem_map, List.mem_range]
  constructor
  · rintro ⟨a, ha, rfl⟩; omega
  · rintro ⟨h1, h2⟩; exact ⟨c - 19968, by omega, by omega⟩

/-- Membership in the alphabet, characterised by code-point ranges. -/
theorem mem_ALPHABET {c : Nat} : c ∈ ALPHABET ↔
    ((33 ≤ c ∧ c ≤ 126 ∧ c ≠ 58) ∨ (161 ≤ c ∧ c ≤ 255) ∨ (880 ≤ c ∧ c ≤ 1023)
      ∨ (1024 ≤ c ∧ c ≤ 1279) ∨ (19968 ≤ c ∧ c < 52148)) := by
  rw [ALPHABET_eq]
  simp only [List.mem_append, mem_asciiPart, mem_latin1Part, mem_greekPart,
    mem_cyrillicPart, mem_cjkPart]
  tauto

theorem rangeMap_nodup (n k : Nat) : ((List.range n).map (· + k)).Nodup := by
  apply List.Nodup.map
  · intro a b hab
    simp only at hab
    omega
  · exact List.nodup_range n

theorem asciiPart_nodup : asciiPart.Nodup :=
  List.Nodup.filter _ (rangeMap_nodup 94 33)

/-- The alphabet has no duplicate symbols: the five segments are internally
duplicate-free and their code-point ranges are pairwise disjoint. -/
theorem ALPHABET_nodup : ALPHABET.Nodup := by
  rw [ALPHABET_eq]
  rw [List.append_assoc, List.append_assoc, List.append_assoc]
  rw [List.nodup_append]
  refine ⟨asciiPart_nodup, ?_, ?_⟩
  · rw [List.nodup_append]
    refine ⟨rangeMap_nodup 95 161, ?_, ?_⟩
    · rw [List.nodup_append]
      refine ⟨rangeMap_nodup 144 880, ?_, ?_⟩
      · rw [List.nodup_append]
        refine ⟨rangeMap_nodup 256 1024, rangeMap_nodup 32180 19968, ?_⟩
        intro x hx hy
        rw [mem_cyrillicPart] at hx
        rw [mem_cjkPart] at hy
        omega
      · intro x hx hy
        rw [mem_greekPart] at hx
        rw [List.mem_append] at hy
        rcases hy with hy | hy
        · rw [mem_cyrillicPart] at hy; omega
        · rw [mem_cjkPart] at hy; omega
    · intro x hx hy
      rw [mem_latin1Part] at hx
      simp only [List.mem_append] at hy
      rcases hy with hy | hy | hy
      · rw [mem_greekPart] at hy; omega
      · rw [mem_cyrillicPart] at hy; omega
      · rw [mem_cjkPart] at hy; omega
  · intro x hx hy
    rw [mem_asciiPart] at hx
    simp only [List.mem_append] at hy
    rcases hy with hy | hy | hy | hy
    · rw [mem_latin1Part] at hy; omega
    · rw [mem_greekPart] at hy; omega
    · rw [mem_cyrillicPart] at hy; omega
    · rw [mem_cjkPart] at hy; omega

theorem idxFind_eq_none {c : Nat} : ∀ {l : List Nat}, c ∉ l → idxFind c l = none := by
  intro l
  induction l with
  | nil => intro _; rfl
  | cons a t ih =>
    intro h
    simp only [List.mem_cons, not_or] at h
    simp [idxFind, Ne.symm h.1, ih h.2]

theorem idxFind_getD : ∀ {l : List Nat}, l.Nodup → ∀ {i : Nat}, i < l.length →
    idxFind (l.getD i 0) l = some i := by
  intro l
  induction l with
  | nil => intro _ i hi; simp at hi
  | cons a t ih =>
    intro hnd i hi
    rcases List.nodup_cons.mp hnd with ⟨hna, hndt⟩
    cases i with
    | zero => simp [idxFind]
    | succ j =>
      have hj : j < t.length := by simpa using hi
      have hmem : t.getD j 0 ∈ t := by
        rw [List.getD_eq_getElem t 0 hj]
        exact List.getElem_mem hj
      have hne : a ≠ t.getD j 0 := fun h => hna (h ▸ hmem)
      rw [List.getD_cons_succ]
      simp only [idxFind]
      rw [if_neg hne, ih hndt hj]
      rfl

theorem idxFind_lt_length {c : Nat} : ∀ {l : List Nat} {i : Nat},
    idxFind c l = some i → i < l.length := by
  intro l
  induction l with
  | nil => intro i h; simp [idxFind] at h
  | cons a t ih =>
    intro i h
    simp only [idxFind] at h
    by_cases hac : a = c
    · rw [if_pos hac] at h
      have h0 : i = 0 := by
        have := Option.some.inj h
        omega
      subst h0
      simp
    · simp only [hac, if_false, Option.map_eq_some'] at h
      rcases h with ⟨j, hj, rfl⟩
      have := ih hj
      simp only [List.length_cons]
      omega

/-- Alphabet bijection, lookup direction: for every index `i < 32768` the
decode map sends `ALPHABET[i]` back to `i`. -/
theorem indexOfA_symbolOf {i : Nat} (hi : i < 32768) : indexOfA (symbolOf i) = some i := by
  unfold indexOfA symbolOf
  exact idxFind_getD ALPHABET_nodup (by rw [ALPHABET_length]; exact hi)

theorem indexOfA_lt {c i : Nat} (h : indexOfA c = some i) : i < 32768 := by
  have := idxFind_lt_length h
  rwa [ALPHABET_length] at this

theorem delimiter_not_mem_ALPHABET : (58 : Nat) ∉ ALPHABET := by
  rw [mem_ALPHABET]
  omega

theorem indexOfA_delimiter : indexOfA 58 = none :=
  idxFind_eq_none delimiter_not_mem_ALPHABET

/-! ### Bit-buffer arithmetic -/

theorem mod_pow_mod_pow {x m n : Nat} (h : m ≤ n) : x % 2 ^ n % 2 ^ m = x % 2 ^ m :=
  Nat.mod_mod_of_dvd x (pow_dvd_pow 2 h)

theorem mod_pow_split (x a b : Nat) :
    (x / 2 ^ b % 2 ^ a) * 2 ^ b + x % 2 ^ b = x % 2 ^ (a + b) := by
  have h1 : x / 2 ^ b % 2 ^ a = x % (2 ^ b * 2 ^ a) / 2 ^ b :=
    Nat.div_mod_eq_mod_mul_div x (2 ^ b) (2 ^ a)
  have h2 : x % 2 ^ b = x % (2 ^ b * 2 ^ a) % 2 ^ b :=
    (Nat.mod_mod_of_dvd x ⟨2 ^ a, rfl⟩).symm
  rw [h1, h2]
  have h3 : (2 : Nat) ^ (a + b) = 2 ^ b * 2 ^ a := by
    rw [pow_add, mul_comm]
  rw [h3]
  rw [mul_comm]
  exact Nat.div_add_mod _ _

theorem shiftin_mod {c : Nat} (w b : Nat) (hc : c < 2 ^ w) (B : Nat) :
    (B * 2 ^ w + c) % 2 ^ (b + w) = (B % 2 ^ b) * 2 ^ w + c := by
  have hpow : (2 : Nat) ^ (b + w) = 2 ^ b * 2 ^ w := pow_add 2 b w
  have hmm : B * 2 ^ w % (2 ^ b * 2 ^ w) = (B % 2 ^ b) * 2 ^ w :=
    Nat.mul_mod_mul_right (2 ^ w) B (2 ^ b)
  have hlt : (B % 2 ^ b) * 2 ^ w + c < 2 ^ b * 2 ^ w := by
    have hb : B % 2 ^ b < 2 ^ b := Nat.mod_lt _ (Nat.pos_pow_of_pos b (by norm_num))
    calc (B % 2 ^ b) * 2 ^ w + c < (B % 2 ^ b) * 2 ^ w + 2 ^ w := by omega
    _ = (B % 2 ^ b + 1) * 2 ^ w := by ring
    _ ≤ 2 ^ b * 2 ^ w := Nat.mul_le_mul_right _ (by omega)
  have hcM : c < 2 ^ b * 2 ^ w := by
    have hb1 : (1 : Nat) ≤ 2 ^ b := Nat.one_le_two_pow
    calc c < 2 ^ w := hc
    _ = 1 * 2 ^ w := (one_mul _).symm
    _ ≤ 2 ^ b * 2 ^ w := Nat.mul_le_mul_right _ hb1
  rw [hpow, Nat.add_mod, hmm, Nat.mod_eq_of_lt hcM, Nat.mod_eq_of_lt hlt]

theorem shift_flush (buffer bits : Nat) (h : bits ≤ 15) :
    buffer * 2 ^ (15 - bits) % 2 ^ 15 = (buffer % 2 ^ bits) * 2 ^ (15 - bits) := by
  have hpow : (2 : Nat) ^ 15 = 2 ^ bits * 2 ^ (15 - bits) := by
    rw [← pow_add]
    congr 1
    omega
  rw [hpow]
  exact Nat.mul_mod_mul_right (2 ^ (15 - bits)) buffer (2 ^ bits)

/-! ### Abstract value of a packed stream -/

theorem beVal_nil (w : Nat) : beVal w [] = 0 := rfl

theorem beVal_cons (w d : Nat) (l : List Nat) :
    beVal w (d :: l) = (d % 2 ^ w) * 2 ^ (w * l.length) + beVal w l := rfl

theorem beVal_lt (w : Nat) : ∀ l : List Nat, beVal w l < 2 ^ (w * l.length) := by
  intro l
  induction l with
  | nil => simp [beVal]
  | cons d t ih =>
    rw [beVal_cons]
    have hd : d % 2 ^ w < 2 ^ w := Nat.mod_lt _ (Nat.pos_pow_of_pos w (by norm_num))
    have hpow : (2 : Nat) ^ (w * (t.length + 1)) = 2 ^ (w * t.length) * 2 ^ w := by
      rw [Nat.mul_succ, pow_add]
    simp only [List.length_cons, hpow]
    calc (d % 2 ^ w) * 2 ^ (w * t.length) + beVal w t
        < (d % 2 ^ w) * 2 ^ (w * t.length) + 2 ^ (w * t.length) := by omega
      _ = (d % 2 ^ w + 1) * 2 ^ (w * t.length) := by ring
      _ ≤ 2 ^ w * 2 ^ (w * t.length) := Nat.mul_le_mul_right _ (by omega)
      _ = 2 ^ (w * t.length) * 2 ^ w := by ring

theorem beVal_append (w : Nat) : ∀ l₁ l₂ : List Nat,
    beVal w (l₁ ++ l₂) = beVal w l₁ * 2 ^ (w * l₂.length) + beVal w l₂ := by
  intro l₁ l₂
  induction l₁ with
  | nil => simp [beVal]
  | cons d t ih =>
    simp only [List.cons_append, beVal_cons, List.length_append, ih]
    have hpow : (2 : Nat) ^ (w * (t.length + l₂.length))
        = 2 ^ (w * t.length) * 2 ^ (w * l₂.length) := by
      rw [Nat.mul_add, pow_add]
    rw [hpow]
    ring

theorem beVal_replicate_zero (w k : Nat) : beVal w (List.replicate k 0) = 0 := by
  induction k with
  | zero => rfl
  | succ n ih => simp [List.replicate_succ, beVal_cons, ih]

theorem beVal_inj (w : Nat) : ∀ l₁ l₂ : List Nat, l₁.length = l₂.length →
    (∀ x ∈ l₁, x < 2 ^ w) → (∀ x ∈ l₂, x < 2 ^ w) →
    beVal w l₁ = beVal w l₂ → l₁ = l₂ := by
  intro l₁
  induction l₁ with
  | nil =>
    intro l₂ hlen _ _ _
    exact (List.length_eq_zero.mp hlen.symm).symm
  | cons d t ih =>
    intro l₂ hlen h1 h2 hv
    cases l₂ with
    | nil => simp at hlen
    | cons e s =>
      have hlen' : t.length = s.length := by simpa using hlen
      have hd : d < 2 ^ w := h1 d (List.mem_cons_self d t)
      have he : e < 2 ^ w := h2 e (List.mem_cons_self e s)
      rw [beVal_cons, beVal_cons, Nat.mod_eq_of_lt hd, Nat.mod_eq_of_lt he, hlen'] at hv
      have hbt : beVal w t < 2 ^ (w * s.length) := hlen' ▸ beVal_lt w t
      have hbs : beVal w s < 2 ^ (w * s.length) := beVal_lt w s
      have hP : 0 < 2 ^ (w * s.length) := Nat.pos_pow_of_pos _ (by norm_num)
      have hde : d = e := by
        have h1' : (d * 2 ^ (w * s.length) + beVal w t) / 2 ^ (w * s.length) = d := by
          rw [mul_comm d, Nat.mul_add_div hP, Nat.div_eq_of_lt hbt]
          omega
        have h2' : (e * 2 ^ (w * s.length) + beVal w s) / 2 ^ (w * s.length) = e := by
          rw [mul_comm e, Nat.mul_add_div hP, Nat.div_eq_of_lt hbs]
          omega
        rw [← h1', ← h2', hv]
      subst hde
      have hts : beVal w t = beVal w s := by
        exact Nat.add_left_cancel hv
      rw [ih s hlen' (fun x hx => h1 x (List.mem_cons_of_mem d hx))
        (fun x hx => h2 x (List.mem_cons_of_mem d hx)) hts]

end GhostComm

namespace GhostComm

/-! ### The extraction loop -/

theorem drainGo_spec (w buffer : Nat) (hw : 0 < w) :
    ∀ fuel bits, bits / w ≤ fuel →
      (drainGo w buffer fuel bits).2 = bits % w ∧
      (drainGo w buffer fuel bits).1.length = bits / w ∧
      beVal w (drainGo w buffer fuel bits).1 * 2 ^ (bits % w) + buffer % 2 ^ (bits % w)
        = buffer % 2 ^ bits ∧
      ∀ y ∈ (drainGo w buffer fuel bits).1, y < 2 ^ w := by
  intro fuel
  induction fuel with
  | zero =>
    intro bits hb
    have hz : bits / w = 0 := Nat.le_zero.mp hb
    have hbw : bits < w := (Nat.div_eq_zero_iff hw).mp hz
    have hmod : bits % w = bits := Nat.mod_eq_of_lt hbw
    refine ⟨by simp [drainGo, hmod], by simp [drainGo, hz], ?_, by simp [drainGo]⟩
    simp [drainGo, hmod, beVal]
  | succ fuel ih =>
    intro bits hb
    by_cases h : w ≤ bits
    · have hsplit : bits = (bits - w) + w := by omega
      have hdiv : bits / w = (bits - w) / w + 1 := by
        conv_lhs => rw [hsplit]
        rw [Nat.add_div_right _ hw]
      have hmod : bits % w = (bits - w) % w := by
        conv_lhs => rw [hsplit]
        rw [Nat.add_mod_right]
      have hfuel : (bits - w) / w ≤ fuel := by omega
      obtain ⟨ih2, ihlen, ihval, ihbnd⟩ := ih (bits - w) hfuel
      simp only [drainGo, if_pos (And.intro hw h)]
      refine ⟨by rw [ih2, hmod], by simp only [List.length_cons, ihlen]; omega, ?_, ?_⟩
      · rw [beVal_cons]
        have hmm : buffer / 2 ^ (bits - w) % 2 ^ w % 2 ^ w = buffer / 2 ^ (bits - w) % 2 ^ w :=
          Nat.mod_mod_of_dvd _ dvd_rfl
        rw [hmm, ihlen]
        have hwl : w * ((bits - w) / w) + (bits - w) % w = bits - w := Nat.div_add_mod _ _
        have hmr : w * ((bits - w) / w) + bits % w = bits - w := by
          rw [hmod]
          exact hwl
        rw [add_mul, add_assoc]
        have h1 : buffer / 2 ^ (bits - w) % 2 ^ w * 2 ^ (w * ((bits - w) / w)) * 2 ^ (bits % w)
            = buffer / 2 ^ (bits - w) % 2 ^ w * 2 ^ (bits - w) := by
          rw [mul_assoc, ← pow_add, hmr]
        rw [h1]
        have h2 : beVal w (drainGo w buffer fuel (bits - w)).1 * 2 ^ (bits % w)
            + buffer % 2 ^ (bits % w) = buffer % 2 ^ (bits - w) := by
          rw [hmod]
          exact ihval
        rw [h2]
        have h3 := mod_pow_split buffer w (bits - w)
        rw [show w + (bits - w) = bits by omega] at h3
        exact h3
      · intro y hy
        rcases List.mem_cons.mp hy with hy | hy
        · subst hy
          exact Nat.mod_lt _ (Nat.pos_pow_of_pos w (by norm_num))
        · exact ihbnd y hy
    · have hbw : bits < w := not_le.mp h
      have hz : bits / w = 0 := (Nat.div_eq_zero_iff hw).mpr hbw
      have hmod : bits % w = bits := Nat.mod_eq_of_lt hbw
      have hcond : ¬ (0 < w ∧ w ≤ bits) := by omega
      refine ⟨by simp [drainGo, hcond, hmod], by simp [drainGo, hcond, hz], ?_,
        by simp [drainGo, hcond]⟩
      simp [drainGo, hcond, hmod, beVal]

end GhostComm


namespace GhostComm

theorem drain_spec (w buffer bits : Nat) (hw : 0 < w) :
    (drain w buffer bits).2 = bits % w ∧
    (drain w buffer bits).1.length = bits / w ∧
    beVal w (drain w buffer bits).1 * 2 ^ (bits % w) + buffer % 2 ^ (bits % w)
      = buffer % 2 ^ bits ∧
    ∀ y ∈ (drain w buffer bits).1, y < 2 ^ w :=
  drainGo_spec w buffer hw bits bits (Nat.div_le_self bits w)

/-! ### The encoder loop invariant

`packBytes data buffer bits` emits `⌈(bits + 8·|data|)/15⌉` indices whose
big-endian value is the pending buffer bits followed by the data bytes,
zero-padded on the right to a multiple of 15 bits. -/

/-! ### The encoder loop invariant

`packBytes data buffer bits` emits `⌈(bits + 8·|data|)/15⌉` indices whose
big-endian value is the pending buffer bits followed by the data bytes,
zero-padded on the right to a multiple of 15 bits. -/

theorem packBytes_spec : ∀ (data : List Nat) (buffer bits : Nat), bits ≤ 14 →
    (∀ x ∈ data, x < 2 ^ 8) →
    (packBytes data buffer bits).length = (bits + 8 * data.length + 14) / 15 ∧
    beVal 15 (packBytes data buffer bits)
      = ((buffer % 2 ^ bits) * 2 ^ (8 * data.length) + beVal 8 data)
        * 2 ^ ((15 - (bits + 8 * data.length) % 15) % 15) ∧
    ∀ y ∈ packBytes data buffer bits, y < 2 ^ 15 := by
  intro data
  induction data with
  | nil =>
    intro buffer bits hbits _
    by_cases hbpos : 0 < bits
    · simp only [packBytes, if_pos hbpos, List.length_nil, Nat.mul_zero, beVal_nil]
      refine ⟨by simp; omega, ?_, ?_⟩
      · rw [beVal_cons, beVal_nil]
        have hflt : buffer * 2 ^ (15 - bits) % 2 ^ 15 < 2 ^ 15 :=
          Nat.mod_lt _ (by norm_num)
        rw [Nat.mod_eq_of_lt hflt, shift_flush buffer bits (by omega)]
        have hex : (15 - (bits + 0) % 15) % 15 = 15 - bits := by omega
        rw [Nat.add_zero, hex]
        simp
      · intro y hy
        rcases List.mem_singleton.mp hy with rfl
        exact Nat.mod_lt _ (by norm_num)
    · have hb0 : bits = 0 := by omega
      subst hb0
      simp [packBytes, beVal_nil, Nat.mod_one]
  | cons byte rest ih =>
    intro buffer bits hbits hb
    have hbyte : byte < 2 ^ 8 := hb byte (List.mem_cons_self _ _)
    have hrest : ∀ x ∈ rest, x < 2 ^ 8 := fun x hx => hb x (List.mem_cons_of_mem _ hx)
    simp only [packBytes]
    obtain ⟨hd2, hdlen, hdval, hdbnd⟩ :=
      drain_spec 15 ((buffer * 2 ^ 8 + byte) % 2 ^ 32) (bits + 8) (by norm_num)
    have hd2le : (drain 15 ((buffer * 2 ^ 8 + byte) % 2 ^ 32) (bits + 8)).2 ≤ 14 := by
      rw [hd2]; omega
    obtain ⟨ihlen, ihval, ihbnd⟩ := ih ((buffer * 2 ^ 8 + byte) % 2 ^ 32)
      (drain 15 ((buffer * 2 ^ 8 + byte) % 2 ^ 32) (bits + 8)).2 hd2le hrest
    rw [hd2] at ihlen ihval ihbnd
    refine ⟨?_, ?_, ?_⟩
    · rw [hd2, List.length_append, hdlen, ihlen]
      simp only [List.length_cons]
      omega
    · rw [hd2, beVal_append, ihval, ihlen]
      simp only [List.length_cons]
      have hbuf' : (buffer * 2 ^ 8 + byte) % 2 ^ 32 % 2 ^ (bits + 8)
          = (buffer % 2 ^ bits) * 2 ^ 8 + byte := by
        rw [mod_pow_mod_pow (by omega : bits + 8 ≤ 32), shiftin_mod 8 bits hbyte]
      have hdval' : beVal 15 (drain 15 ((buffer * 2 ^ 8 + byte) % 2 ^ 32) (bits + 8)).1
            * 2 ^ ((bits + 8) % 15)
            + (buffer * 2 ^ 8 + byte) % 2 ^ 32 % 2 ^ ((bits + 8) % 15)
          = (buffer % 2 ^ bits) * 2 ^ 8 + byte := hdval.trans hbuf'
    
      have h8l : 8 * (rest.length + 1) = 8 * rest.length + 8 := by ring
      rw [h8l]
      have hpad : (15 - ((bits + 8) % 15 + 8 * rest.length) % 15) % 15
          = (15 - (bits + (8 * rest.length + 8)) % 15) % 15 := by omega
      have htl : 15 * (((bits + 8) % 15 + 8 * rest.length + 14) / 15)
          = (bits + 8) % 15 + (8 * rest.length
            + (15 - (bits + (8 * rest.length + 8)) % 15) % 15) := by omega
      rw [hpad, htl, beVal_cons, Nat.mod_eq_of_lt hbyte]
      simp only [pow_add]
      set A := beVal 15 (drain 15 ((buffer * 2 ^ 8 + byte) % 2 ^ 32) (bits + 8)).1 with hA
      set Q := (buffer * 2 ^ 8 + byte) % 2 ^ 32 % 2 ^ ((bits + 8) % 15) with hQ
      set X := (2 : Nat) ^ ((bits + 8) % 15) with hX
      set Lp := (2 : Nat) ^ (8 * rest.length) with hLp
      set M := (2 : Nat) ^ ((15 - (bits + (8 * rest.length + 8)) % 15) % 15) with hM
      set P := buffer % 2 ^ bits with hP
      set R := beVal 8 rest with hR
      have hdz : (A : Int) * X + Q = P * 2 ^ 8 + byte := by exact_mod_cast hdval'
      zify
      linear_combination (Lp * M : Int) * hdz
    · intro y hy
      rw [hd2] at hy
      rcases List.mem_append.mp hy with hy | hy
      · exact hdbnd y hy
      · exact ihbnd y hy

/-! ### The decoder loop invariant

`unpackIdxs idxs buffer bits` emits `⌊(bits + 15·|idxs|)/8⌋` bytes; their
big-endian value, completed by a leftover made of the dropped trailing
`(bits + 15·|idxs|) mod 8` bits, is the pending buffer bits followed by
the indices. -/

theorem unpackIdxs_spec : ∀ (idxs : List Nat) (buffer bits : Nat), bits ≤ 7 →
    (∀ x ∈ idxs, x < 2 ^ 15) →
    (unpackIdxs idxs buffer bits).length = (bits + 15 * idxs.length) / 8 ∧
    (∀ y ∈ unpackIdxs idxs buffer bits, y < 2 ^ 8) ∧
    ∃ leftover < 2 ^ ((bits + 15 * idxs.length) % 8),
      beVal 8 (unpackIdxs idxs buffer bits) * 2 ^ ((bits + 15 * idxs.length) % 8) + leftover
        = (buffer % 2 ^ bits) * 2 ^ (15 * idxs.length) + beVal 15 idxs := by
  intro idxs
  induction idxs with
  | nil =>
    intro buffer bits hbits _
    refine ⟨by simp [unpackIdxs]; omega, by simp [unpackIdxs], ?_⟩
    refine ⟨buffer % 2 ^ bits, ?_, ?_⟩
    · have hm : (bits + 15 * ([] : List Nat).length) % 8 = bits := by simp; omega
      rw [hm]
      exact Nat.mod_lt _ (Nat.pos_pow_of_pos bits (by norm_num))
    · simp [unpackIdxs, beVal_nil]
  | cons idx rest ih =>
    intro buffer bits hbits hi
    have hidx : idx < 2 ^ 15 := hi idx (List.mem_cons_self _ _)
    have hrest : ∀ x ∈ rest, x < 2 ^ 15 := fun x hx => hi x (List.mem_cons_of_mem _ hx)
    simp only [unpackIdxs]
    obtain ⟨hd2, hdlen, hdval, hdbnd⟩ :=
      drain_spec 8 ((buffer * 2 ^ 15 + idx) % 2 ^ 32) (bits + 15) (by norm_num)
    have hd2le : (drain 8 ((buffer * 2 ^ 15 + idx) % 2 ^ 32) (bits + 15)).2 ≤ 7 := by
      rw [hd2]; omega
    obtain ⟨ihlen, ihbnd, leftover, hlt, ihval⟩ := ih ((buffer * 2 ^ 15 + idx) % 2 ^ 32)
      (drain 8 ((buffer * 2 ^ 15 + idx) % 2 ^ 32) (bits + 15)).2 hd2le hrest
    rw [hd2] at ihlen ihval hlt ihbnd
    have hcong : ((bits + 15) % 8 + 15 * rest.length) % 8
        = (bits + 15 * (rest.length + 1)) % 8 := by omega
    refine ⟨?_, ?_, ?_⟩
    · rw [hd2, List.length_append, hdlen, ihlen]
      simp only [List.length_cons]
      omega
    · intro y hy
      rw [hd2] at hy
      rcases List.mem_append.mp hy with hy | hy
      · exact hdbnd y hy
      · exact ihbnd y hy
    · refine ⟨leftover, ?_, ?_⟩
      · simp only [List.length_cons]
        rw [← hcong]
        exact hlt
      · simp only [List.length_cons]
        rw [hd2, beVal_append, ihlen]
        rw [beVal_cons, Nat.mod_eq_of_lt hidx]
        rw [hcong] at ihval
        have hbuf' : (buffer * 2 ^ 15 + idx) % 2 ^ 32 % 2 ^ (bits + 15)
            = (buffer % 2 ^ bits) * 2 ^ 15 + idx := by
          rw [mod_pow_mod_pow (by omega : bits + 15 ≤ 32), shiftin_mod 15 bits hidx]
        have hdval' : beVal 8 (drain 8 ((buffer * 2 ^ 15 + idx) % 2 ^ 32) (bits + 15)).1
              * 2 ^ ((bits + 15) % 8)
              + (buffer * 2 ^ 15 + idx) % 2 ^ 32 % 2 ^ ((bits + 15) % 8)
            = (buffer % 2 ^ bits) * 2 ^ 15 + idx := hdval.trans hbuf'
        have h15 : 15 * (rest.length + 1) = 15 * rest.length + 15 := by ring
        rw [h15] at ihval ⊢
        have hXsplit : (2 : Nat) ^ (8 * (((bits + 15) % 8 + 15 * rest.length) / 8))
              * 2 ^ ((bits + (15 * rest.length + 15)) % 8)
            = 2 ^ ((bits + 15) % 8) * 2 ^ (15 * rest.length) := by
          rw [← pow_add, ← pow_add]
          congr 1
          omega
        simp only [pow_add]
        set A := beVal 8 (drain 8 ((buffer * 2 ^ 15 + idx) % 2 ^ 32) (bits + 15)).1 with hA
        set T := beVal 8 (unpackIdxs rest ((buffer * 2 ^ 15 + idx) % 2 ^ 32)
          ((bits + 15) % 8)) with hT
        set Q := (buffer * 2 ^ 15 + idx) % 2 ^ 32 % 2 ^ ((bits + 15) % 8) with hQ
        set X1 := (2 : Nat) ^ (8 * (((bits + 15) % 8 + 15 * rest.length) / 8)) with hX1
        set Xr := (2 : Nat) ^ ((bits + (15 * rest.length + 15)) % 8) with hXr
        set Xd := (2 : Nat) ^ ((bits + 15) % 8) with hXd
        set XL := (2 : Nat) ^ (15 * rest.length) with hXL
        set P := buffer % 2 ^ bits with hP
        set R := beVal 15 rest with hR
        have hdz : (A : Int) * Xd + Q = P * 2 ^ 15 + idx := by exact_mod_cast hdval'
        have ihz : (T : Int) * Xr + leftover = Q * XL + R := by exact_mod_cast ihval
        have hXz : (X1 : Int) * Xr = Xd * XL := by exact_mod_cast hXsplit
        zify
        linear_combination (A : Int) * hXz + (XL : Int) * hdz + ihz

end GhostComm


namespace GhostComm

/-! ### Round-trip assembly -/

theorem filterMap_indexOfA_map_symbolOf :
    ∀ l : List Nat, (∀ x ∈ l, x < 32768) → (l.map symbolOf).filterMap indexOfA = l := by
  intro l hl
  induction l with
  | nil => rfl
  | cons a t ih =>
    have ha : indexOfA (symbolOf a) = some a :=
      indexOfA_symbolOf (hl a (List.mem_cons_self a t))
    rw [List.map_cons, List.filterMap_cons_some ha]
    rw [ih (fun x hx => hl x (List.mem_cons_of_mem _ hx))]

theorem mul_add_lt_cancel {t a b l : Nat} (ht : 0 < t) (hl : l < t)
    (h : a * t + l = b * t) : a = b ∧ l = 0 := by
  have ha : (a * t + l) / t = a := by
    rw [add_comm, Nat.add_mul_div_right l a ht, Nat.div_eq_of_lt hl]
    omega
  have hb : b * t / t = b := Nat.mul_div_cancel _ ht
  have hab : a = b := by rw [← ha, h, hb]
  subst hab
  refine ⟨rfl, ?_⟩
  have h0 : a * t + l = a * t + 0 := by rw [Nat.add_zero]; exact h
  exact Nat.add_left_cancel h0

theorem header32_lt (n : Nat) : ∀ x ∈ header32 n, x < 2 ^ 8 := by
  intro x hx
  simp only [header32, List.mem_cons, List.not_mem_nil, or_false] at hx
  rcases hx with rfl | rfl | rfl | rfl <;> exact Nat.mod_lt _ (by norm_num)

theorem header32_length (n : Nat) : (header32 n).length = 4 := rfl

theorem decodeBase32768_eq (s : List Nat) : decodeBase32768 s =
    if (unpackIdxs (s.filterMap indexOfA) 0 0).length < 4 then []
    else ((unpackIdxs (s.filterMap indexOfA) 0 0).drop 4).take
      ((unpackIdxs (s.filterMap indexOfA) 0 0).getD 0 0 * 2 ^ 24
        + (unpackIdxs (s.filterMap indexOfA) 0 0).getD 1 0 * 2 ^ 16
        + (unpackIdxs (s.filterMap indexOfA) 0 0).getD 2 0 * 2 ^ 8
        + (unpackIdxs (s.filterMap indexOfA) 0 0).getD 3 0) := rfl

theorem beVal_append_replicate_zero (w : Nat) (l : List Nat) (k : Nat) :
    beVal w (l ++ List.replicate k 0) = beVal w l * 2 ^ (w * k) := by
  rw [beVal_append, beVal_replicate_zero, List.length_replicate, Nat.add_zero]

theorem header32_val (n : Nat) (h : n < 2 ^ 32) :
    n / 2 ^ 24 % 2 ^ 8 * 2 ^ 24 + n / 2 ^ 16 % 2 ^ 8 * 2 ^ 16
      + n / 2 ^ 8 % 2 ^ 8 * 2 ^ 8 + n % 2 ^ 8 = n := by omega

end GhostComm


namespace GhostComm

/-- **C1.** Round-trip of the bit-pack codec: for every byte buffer `b`
(bytes `< 2 ^ 8`, length within the 32-bit header range), including the
empty buffer and buffers whose total bit length is not a multiple of 15,
`decodeBase32768 (encodeBase32768 b) = b`. -/
theorem C1_decode_encode_roundtrip (b : List Nat) (hlen : b.length < 2 ^ 32)
    (hb : ∀ x ∈ b, x < 2 ^ 8) : decodeBase32768 (encodeBase32768 b) = b := by
  have hcomb : ∀ x ∈ header32 b.length ++ b, x < 2 ^ 8 := by
    intro x hx
    rcases List.mem_append.mp hx with hx | hx
    · exact header32_lt _ x hx
    · exact hb x hx
  have hclen : (header32 b.length ++ b).length = 4 + b.length := by
    rw [List.length_append, header32_length]
  obtain ⟨hKlen, hKval, hKbnd⟩ :=
    packBytes_spec (header32 b.length ++ b) 0 0 (by norm_num) hcomb
  simp only [Nat.zero_add, pow_zero, Nat.mod_one, Nat.zero_mul, Nat.zero_add,
    Nat.zero_mod, zero_mul, zero_add] at hKlen hKval
  obtain ⟨hMlen, hMbnd, leftover, hlo, hMval⟩ :=
    unpackIdxs_spec (packBytes (header32 b.length ++ b) 0 0) 0 0 (by norm_num) hKbnd
  simp only [Nat.zero_add, pow_zero, Nat.mod_one, Nat.zero_mul, Nat.zero_add,
    Nat.zero_mod, zero_mul, zero_add] at hMlen hMval hlo
  rw [hclen] at hKlen hKval
  rw [hKlen] at hMlen hMval hlo
  -- abbreviations for the two stream lengths
  have harith : (15 - (8 * (4 + b.length)) % 15) % 15
      = 8 * ((15 * ((8 * (4 + b.length) + 14) / 15)) / 8 - (4 + b.length))
        + (15 * ((8 * (4 + b.length) + 14) / 15)) % 8 := by omega
  have hge : 4 + b.length ≤ (15 * ((8 * (4 + b.length) + 14) / 15)) / 8 := by omega
  rw [harith] at hKval
  rw [hKval, pow_add, ← mul_assoc] at hMval
  obtain ⟨houtval, -⟩ := mul_add_lt_cancel (Nat.pos_pow_of_pos _ (by norm_num)) hlo hMval
  -- the unpacked bytes are the combined stream followed by zero padding
  have hout : unpackIdxs (packBytes (header32 b.length ++ b) 0 0) 0 0
      = (header32 b.length ++ b)
        ++ List.replicate ((15 * ((8 * (4 + b.length) + 14) / 15)) / 8 - (4 + b.length)) 0 := by
    apply beVal_inj 8
    · rw [hMlen, List.length_append, List.length_replicate, hclen]
      omega
    · exact hMbnd
    · intro x hx
      rcases List.mem_append.mp hx with hx | hx
      · exact hcomb x hx
      · rw [List.eq_of_mem_replicate hx]
        norm_num
    · rw [houtval, beVal_append_replicate_zero]
  -- evaluate the slicing in the decoder
  unfold encodeBase32768
  rw [decodeBase32768_eq]
  rw [filterMap_indexOfA_map_symbolOf _ (fun x hx => by
    have hx15 := hKbnd x hx
    norm_num at hx15
    omega)]
  rw [hout]
  rw [List.append_assoc]
  have hlen4 : ¬ (header32 b.length ++ (b ++ List.replicate
      ((15 * ((8 * (4 + b.length) + 14) / 15)) / 8 - (4 + b.length)) 0)).length < 4 := by
    rw [List.length_append, header32_length]
    omega
  rw [if_neg hlen4]
  have hg0 : (header32 b.length ++ (b ++ List.replicate
      ((15 * ((8 * (4 + b.length) + 14) / 15)) / 8 - (4 + b.length)) 0)).getD 0 0
      = b.length / 2 ^ 24 % 2 ^ 8 :=
    List.getD_append _ _ _ _ (by rw [header32_length]; norm_num)
  have hg1 : (header32 b.length ++ (b ++ List.replicate
      ((15 * ((8 * (4 + b.length) + 14) / 15)) / 8 - (4 + b.length)) 0)).getD 1 0
      = b.length / 2 ^ 16 % 2 ^ 8 :=
    List.getD_append _ _ _ _ (by rw [header32_length]; norm_num)
  have hg2 : (header32 b.length ++ (b ++ List.replicate
      ((15 * ((8 * (4 + b.length) + 14) / 15)) / 8 - (4 + b.length)) 0)).getD 2 0
      = b.length / 2 ^ 8 % 2 ^ 8 :=
    List.getD_append _ _ _ _ (by rw [header32_length]; norm_num)
  have hg3 : (header32 b.length ++ (b ++ List.replicate
      ((15 * ((8 * (4 + b.length) + 14) / 15)) / 8 - (4 + b.length)) 0)).getD 3 0
      = b.length % 2 ^ 8 :=
    List.getD_append _ _ _ _ (by rw [header32_length]; norm_num)
  rw [hg0, hg1, hg2, hg3]
  rw [header32_val b.length hlen]
  rw [show (4 : Nat) = (header32 b.length).length from (header32_length b.length).symm,
    List.drop_left]
  conv_lhs => rw [show b.length = (b).length from rfl]
  rw [List.take_left]

end GhostComm


namespace GhostComm

/-! ### Checksum facts -/

theorem wrap32_mod (a : Int) : wrap32 a % 2 ^ 32 = a % 2 ^ 32 := by
  unfold wrap32
  omega

theorem wrap32_congr {a b : Int} (h : a % 2 ^ 32 = b % 2 ^ 32) : wrap32 a = wrap32 b := by
  unfold wrap32
  omega

theorem checksumStep_eq (h : Int) (c : Nat) : checksumStep h c = wrap32 (31 * h + c) := by
  unfold checksumStep
  apply wrap32_congr
  have h32 := wrap32_mod (h * 32)
  omega

theorem toBase36Go_chars : ∀ fuel n c, c ∈ toBase36Go fuel n →
    (48 ≤ c ∧ c ≤ 57) ∨ (97 ≤ c ∧ c ≤ 122) := by
  intro fuel
  induction fuel with
  | zero =>
    intro n c hc
    simp only [toBase36Go, List.mem_singleton] at hc
    subst hc
    unfold base36Char
    have : n % 36 < 36 := Nat.mod_lt _ (by norm_num)
    split <;> omega
  | succ fuel ih =>
    intro n c hc
    simp only [toBase36Go] at hc
    by_cases hn : n < 36
    · rw [if_pos hn] at hc
      simp only [List.mem_singleton] at hc
      subst hc
      unfold base36Char
      split <;> omega
    · rw [if_neg hn] at hc
      rcases List.mem_append.mp hc with hc | hc
      · exact ih _ c hc
      · simp only [List.mem_singleton] at hc
        subst hc
        unfold base36Char
        have : n % 36 < 36 := Nat.mod_lt _ (by norm_num)
        split <;> omega

/-- Every character of a checksum fingerprint is a decimal digit or an
uppercase letter (in particular it is never the delimiter `:`). -/
theorem calculateChecksum_chars : ∀ (s : List Nat), ∀ c ∈ calculateChecksum s,
    (48 ≤ c ∧ c ≤ 57) ∨ (65 ≤ c ∧ c ≤ 90) := by
  intro s c hc
  unfold calculateChecksum toUpper at hc
  rcases List.mem_map.mp hc with ⟨c0, hc0, rfl⟩
  have hcls := toBase36Go_chars _ _ c0 (List.mem_of_mem_take hc0)
  split <;> omega

theorem calculateChecksum_length (s : List Nat) : (calculateChecksum s).length ≤ 4 := by
  unfold calculateChecksum toUpper
  rw [List.length_map, List.length_take]
  omega

theorem calculateChecksum_ne_delim (s : List Nat) : ∀ c ∈ calculateChecksum s, c ≠ 58 := by
  intro c hc
  rcases calculateChecksum_chars s c hc with h | h <;> omega

/-! ### Claim theorems: alphabet, checksum, decode-skip -/

/-- **C6.** The alphabet has exactly 32768 entries, is duplicate-free (so the
index-to-symbol map is bijective), `index_of (symbol_of i) = some i` for every
index, and the delimiter `:` (58) is not an alphabet symbol. -/
theorem C6_alphabet_bijection :
    ALPHABET.length = 32768 ∧ ALPHABET.Nodup ∧
    (∀ i, i < 32768 → indexOfA (symbolOf i) = some i) ∧ (58 : Nat) ∉ ALPHABET :=
  ⟨ALPHABET_length, ALPHABET_nodup, fun _ hi => indexOfA_symbolOf hi,
    delimiter_not_mem_ALPHABET⟩

/-- Witness for C6 at the concrete index 0. -/
theorem C6_alphabet_bijection_witness : indexOfA (symbolOf 0) = some 0 :=
  C6_alphabet_bijection.2.2.1 0 (by norm_num)

/-- **C7 (amended).** The checksum folds `hash = hash * 31 + codepoint` in
wraparound 32-bit signed arithmetic (the source's `(hash << 5) - hash` form is
equal, step by step, to the spec's `hash * 31` form), takes `abs`, renders in
base 36, keeps the first 4 characters and uppercases; the fingerprint is an
uppercase base-36 string of **at most** 4 characters (short hashes give fewer
than 4, so it is not 4 characters for every input). -/
theorem C7_checksum_shape (s : List Nat) :
    s.foldl checksumStep 0 = s.foldl (fun (h : Int) (c : Nat) => wrap32 (31 * h + c)) 0 ∧
    calculateChecksum s
      = toUpper ((toBase36 (s.foldl checksumStep 0).natAbs).take 4) ∧
    (calculateChecksum s).length ≤ 4 ∧
    ∀ c ∈ calculateChecksum s, (48 ≤ c ∧ c ≤ 57) ∨ (65 ≤ c ∧ c ≤ 90) := by
  refine ⟨?_, rfl, calculateChecksum_length s, calculateChecksum_chars s⟩
  have hfun : checksumStep = fun (h : Int) (c : Nat) => wrap32 (31 * h + c) := by
    funext h c
    exact checksumStep_eq h c
  rw [hfun]

/-- Witness for C7 on the concrete input `"!"` (checksum `"X"`). -/
theorem C7_checksum_shape_witness :
    (48 ≤ 88 ∧ 88 ≤ 57) ∨ (65 ≤ 88 ∧ 88 ≤ 90) :=
  (C7_checksum_shape [33]).2.2.2 88 (by decide)

/-- **C7 (counterexample to the claim as stated).** The fingerprint of the
empty string is `"0"`, a single character — not a 4-character string. -/
theorem C7_checksum_four_char_counterexample :
    calculateChecksum [] = [48] ∧ (calculateChecksum []).length ≠ 4 := by decide

/-- **C5.** Inserting characters that are not in the alphabet, at arbitrary
positions, does not change what `decodeBase32768` returns: unrecognised
characters are silently skipped. -/
theorem C5_decode_skips_junk (s s' : List Nat) (h : InsertedJunk s s') :
    decodeBase32768 s' = decodeBase32768 s := by
  have key : s'.filterMap indexOfA = s.filterMap indexOfA := by
    induction h with
    | nil => rfl
    | keep c h ih =>
      cases hc : indexOfA c with
      | none => rw [List.filterMap_cons_none hc, List.filterMap_cons_none hc, ih]
      | some i => rw [List.filterMap_cons_some hc, List.filterMap_cons_some hc, ih]
    | junk c hc h ih => rw [List.filterMap_cons_none hc, ih]
  rw [decodeBase32768_eq, decodeBase32768_eq, key]

/-- Witness for C5: inserting the delimiter `:` (not an alphabet symbol) into
the empty string leaves the decode result unchanged. -/
theorem C5_decode_skips_junk_witness :
    InsertedJunk [] [58] ∧ decodeBase32768 [58] = decodeBase32768 [] :=
  ⟨InsertedJunk.junk 58 indexOfA_delimiter InsertedJunk.nil,
    C5_decode_skips_junk [] [58] (InsertedJunk.junk 58 indexOfA_delimiter InsertedJunk.nil)⟩

end GhostComm


namespace GhostComm

/-! ### Decoder slicing claims -/

theorem filterMap_indexOfA_lt (s : List Nat) : ∀ x ∈ s.filterMap indexOfA, x < 2 ^ 15 := by
  intro x hx
  rcases List.mem_filterMap.mp hx with ⟨c, _, hc⟩
  have := indexOfA_lt hc
  omega

theorem getD_head_beVal : ∀ l : List Nat, 4 ≤ l.length → (∀ y ∈ l, y < 2 ^ 8) →
    l.getD 0 0 * 2 ^ 24 + l.getD 1 0 * 2 ^ 16 + l.getD 2 0 * 2 ^ 8 + l.getD 3 0
      = beVal 8 (l.take 4) := by
  intro l hlen hbnd
  match l, hlen with
  | a :: b :: c :: d :: t, _ =>
    have ha : a < 2 ^ 8 := hbnd a (by simp)
    have hb : b < 2 ^ 8 := hbnd b (by simp)
    have hc : c < 2 ^ 8 := hbnd c (by simp)
    have hd : d < 2 ^ 8 := hbnd d (by simp)
    show a * 2 ^ 24 + b * 2 ^ 16 + c * 2 ^ 8 + d = beVal 8 [a, b, c, d]
    simp only [beVal, List.length_cons, List.length_nil]
    rw [Nat.mod_eq_of_lt ha, Nat.mod_eq_of_lt hb, Nat.mod_eq_of_lt hc, Nat.mod_eq_of_lt hd]
    norm_num
    ring

/-- **C9.** The decoder returns the empty buffer when fewer than 4 bytes were
unpacked; otherwise it reads the first 4 unpacked bytes as a big-endian
unsigned 32-bit length `n` and returns exactly the bytes at positions
`[4, 4 + n)`, discarding everything beyond that slice. -/
theorem C9_decode_header_slice (s : List Nat) :
    ((unpackIdxs (s.filterMap indexOfA) 0 0).length < 4 → decodeBase32768 s = []) ∧
    (4 ≤ (unpackIdxs (s.filterMap indexOfA) 0 0).length →
      decodeBase32768 s
        = ((unpackIdxs (s.filterMap indexOfA) 0 0).drop 4).take
            (beVal 8 ((unpackIdxs (s.filterMap indexOfA) 0 0).take 4))) := by
  constructor
  · intro h
    rw [decodeBase32768_eq, if_pos h]
  · intro h
    obtain ⟨-, hbnd, -⟩ := unpackIdxs_spec (s.filterMap indexOfA) 0 0 (by norm_num)
      (filterMap_indexOfA_lt s)
    rw [decodeBase32768_eq, if_neg (by omega)]
    rw [getD_head_beVal _ h hbnd]

/-- Witness for C9 at the empty input (0 unpacked bytes < 4). -/
theorem C9_decode_header_slice_witness : decodeBase32768 [] = [] :=
  (C9_decode_header_slice []).1 (by decide)

/-- **C10.** The decoder is total (the embedding is a total function, and the
source path has no throw); when at least 4 bytes were unpacked but the
declared big-endian length exceeds the bytes available after the header,
`decode` returns exactly the available bytes after position 4 — a buffer
shorter than the declared length — instead of failing. -/
theorem C10_decode_clamps_short_payload (s : List Nat)
    (h4 : 4 ≤ (unpackIdxs (s.filterMap indexOfA) 0 0).length)
    (hover : (unpackIdxs (s.filterMap indexOfA) 0 0).length
      < 4 + beVal 8 ((unpackIdxs (s.filterMap indexOfA) 0 0).take 4)) :
    decodeBase32768 s = (unpackIdxs (s.filterMap indexOfA) 0 0).drop 4 ∧
    (decodeBase32768 s).length + 4 = (unpackIdxs (s.filterMap indexOfA) 0 0).length ∧
    (decodeBase32768 s).length
      < beVal 8 ((unpackIdxs (s.filterMap indexOfA) 0 0).take 4) := by
  obtain ⟨-, hbnd, -⟩ := unpackIdxs_spec (s.filterMap indexOfA) 0 0 (by norm_num)
    (filterMap_indexOfA_lt s)
  have hdec : decodeBase32768 s = (unpackIdxs (s.filterMap indexOfA) 0 0).drop 4 := by
    rw [decodeBase32768_eq, if_neg (by omega), getD_head_beVal _ h4 hbnd]
    apply List.take_of_length_le
    rw [List.length_drop]
    omega
  refine ⟨hdec, ?_, ?_⟩ <;> rw [hdec, List.length_drop] <;> omega

end GhostComm


namespace GhostComm

/-! ### Concrete alphabet lookups (through the closed form; the raw
definition is a 32768-step accumulation the kernel should not unfold) -/

theorem indexOfA_33 : indexOfA 33 = some 0 := by
  unfold indexOfA
  rw [ALPHABET_eq]
  decide

theorem indexOfA_34 : indexOfA 34 = some 1 := by
  unfold indexOfA
  rw [ALPHABET_eq]
  decide

/-- Witness for C1 at the concrete buffer `[0, 255]` (16 bits, not a multiple
of 15). -/
theorem C1_decode_encode_roundtrip_witness :
    ([0, 255] : List Nat).length < 2 ^ 32 ∧ (∀ x ∈ ([0, 255] : List Nat), x < 2 ^ 8) ∧
    decodeBase32768 (encodeBase32768 [0, 255]) = [0, 255] :=
  ⟨by decide, by decide, C1_decode_encode_roundtrip [0, 255] (by decide) (by decide)⟩

/-- Witness for C10 at `"!\"!"` (indices 0, 1, 0): five bytes are unpacked,
the declared length 4 exceeds the single available byte, and decode returns
just that byte. -/
theorem C10_decode_clamps_short_payload_witness :
    decodeBase32768 [33, 34, 33] = [0] := by
  have hfm : ([33, 34, 33] : List Nat).filterMap indexOfA = [0, 1, 0] := by
    rw [List.filterMap_cons_some indexOfA_33, List.filterMap_cons_some indexOfA_34,
      List.filterMap_cons_some indexOfA_33, List.filterMap_nil]
  have h := C10_decode_clamps_short_payload [33, 34, 33]
  rw [hfm] at h
  exact (h (by decide) (by decide)).1.trans (by decide)

end GhostComm


namespace GhostComm

/-- **C4 (counterexample to the claim as stated).** A valid volume whose
payload checksum survives a one-character flip: both payloads
`[0x4E00, 0x4E00, 0x4E00]` and `[0x4E00, 0x4E00, 0x4E01]` fingerprint to
`"BSZK"`, so the flipped volume is still accepted by `extractAllChunks`
(the corrupted fragment is present in the candidate list, not absent). -/
theorem C4_flip_collision_counterexample :
    calculateChecksum [19968, 19968, 19968] = calculateChecksum [19968, 19968, 19969] ∧
    ([71, 67, 58, 73, 58, 49, 58, 48, 58, 66, 83, 90, 75, 58, 19968, 19968, 19969]
      : List Nat)
      = ([71, 67, 58, 73, 58, 49, 58, 48, 58, 66, 83, 90, 75, 58, 19968, 19968, 19968]
          : List Nat).set 16 19969 ∧
    extractAllChunks
        [71, 67, 58, 73, 58, 49, 58, 48, 58, 66, 83, 90, 75, 58, 19968, 19968, 19968]
      = [⟨[73], some 1, some 0, [66, 83, 90, 75], [19968, 19968, 19968]⟩] ∧
    extractAllChunks
        [71, 67, 58, 73, 58, 49, 58, 48, 58, 66, 83, 90, 75, 58, 19968, 19968, 19969]
      = [⟨[73], some 1, some 0, [66, 83, 90, 75], [19968, 19968, 19969]⟩] := by
  decide

/-- **C2 (counterexample to the claim as stated).** Two checksum-valid volumes
declaring `total = 2` but carrying indices 0 and 5: the receiver's entry count
reaches the declared total, reassembly is reported complete by both receiver
variants, yet the index set `{0, 5}` is not `{0, 1}` (index 1 is absent). -/
theorem C2_count_only_completion_counterexample :
    (insertAll [] (extractAllChunks
        [71, 67, 58, 73, 58, 50, 58, 48, 58, 66, 83, 90, 75, 58, 19968, 19968, 19968,
          71, 67, 58, 73, 58, 50, 58, 53, 58, 66, 83, 90, 75, 58, 19968, 19968,
          19968])).length = 2 ∧
    (tryReassemble (insertAll [] (extractAllChunks
        [71, 67, 58, 73, 58, 50, 58, 48, 58, 66, 83, 90, 75, 58, 19968, 19968, 19968,
          71, 67, 58, 73, 58, 50, 58, 53, 58, 66, 83, 90, 75, 58, 19968, 19968,
          19968]))).isSome = true ∧
    processTextComplete []
        [71, 67, 58, 73, 58, 50, 58, 48, 58, 66, 83, 90, 75, 58, 19968, 19968, 19968,
          71, 67, 58, 73, 58, 50, 58, 53, 58, 66, 83, 90, 75, 58, 19968, 19968,
          19968] = true ∧
    lookupCS (insertAll [] (extractAllChunks
        [71, 67, 58, 73, 58, 50, 58, 48, 58, 66, 83, 90, 75, 58, 19968, 19968, 19968,
          71, 67, 58, 73, 58, 50, 58, 53, 58, 66, 83, 90, 75, 58, 19968, 19968,
          19968])) (some 1) = none ∧
    lookupCS (insertAll [] (extractAllChunks
        [71, 67, 58, 73, 58, 50, 58, 48, 58, 66, 83, 90, 75, 58, 19968, 19968, 19968,
          71, 67, 58, 73, 58, 50, 58, 53, 58, 66, 83, 90, 75, 58, 19968, 19968,
          19968])) (some 5)
      = some ⟨[73], some 2, some 5, [66, 83, 90, 75], [19968, 19968, 19968]⟩ := by
  decide

/-- **C3 (counterexample to the claim as stated).** A checksum-valid volume
declaring `total = 1` with `index = 3` is accepted by the extractor and stored
in the chunk set by the insert path — no `index < total` rejection happens,
so the stored entry violates `0 ≤ index < total`. -/
theorem C3_no_index_validation_counterexample :
    extractAllChunks
        [71, 67, 58, 73, 58, 49, 58, 51, 58, 66, 83, 90, 75, 58, 19968, 19968, 19968]
      = [⟨[73], some 1, some 3, [66, 83, 90, 75], [19968, 19968, 19968]⟩] ∧
    lookupCS (insertAll [] (extractAllChunks
        [71, 67, 58, 73, 58, 49, 58, 51, 58, 66, 83, 90, 75, 58, 19968, 19968, 19968]))
        (some 3)
      = some ⟨[73], some 1, some 3, [66, 83, 90, 75], [19968, 19968, 19968]⟩ ∧
    ¬ ((3 : Int) < 1) := by
  decide

end GhostComm


namespace GhostComm

/-! ### The receiver's actual insertion and completion behaviour -/

/-- **C2 (amended).** Reassembly is triggered exactly when the entry count of
the chunk set reaches the total declared by its first entry — the present
index set is not examined — and on completion the stored payloads are joined
in ascending index order and handed to the decoder. -/
theorem C2_completion_by_entry_count :
    tryReassemble ([] : List (Option Int × Chunk)) = none ∧
    ∀ (k : Option Int) (c : Chunk) (rest : List (Option Int × Chunk)),
      ((tryReassemble ((k, c) :: rest)).isSome
        = sizeGeTotal (rest.length + 1) c.total) ∧
      (sizeGeTotal (rest.length + 1) c.total = true →
        tryReassemble ((k, c) :: rest)
          = some (decodeBase32768
              (((sortByIndex (((k, c) :: rest).map (·.2))).map (·.payload)).flatten))) := by
  refine ⟨rfl, ?_⟩
  intro k c rest
  constructor
  · by_cases h : sizeGeTotal ((k, c) :: rest).length c.total = true
    · rw [tryReassemble, if_pos h]
      simp only [List.length_cons] at h
      simp [h]
    · rw [tryReassemble, if_neg h]
      simp only [List.length_cons] at h
      simp only [Option.isSome_none]
      exact (Bool.not_eq_true _ ▸ h : _) ▸ rfl
  · intro h
    rw [tryReassemble, if_pos (by simpa [List.length_cons] using h)]

/-- Witness for the amended C2: a single stored chunk declaring `total = 1`
triggers reassembly of its own payload. -/
theorem C2_completion_by_entry_count_witness :
    tryReassemble [(some 0, (⟨[73], some 1, some 0, [88], [33]⟩ : Chunk))]
      = some (decodeBase32768 [33]) :=
  ((C2_completion_by_entry_count.2 (some 0) ⟨[73], some 1, some 0, [88], [33]⟩ []).2
    (by decide)).trans rfl

theorem find?_append_some {α : Type} (p : α → Bool) (x : α) (l₁ l₂ : List α)
    (h : l₁.find? p = some x) : (l₁ ++ l₂).find? p = some x := by
  induction l₁ with
  | nil => simp [List.find?] at h
  | cons a t ih =>
    by_cases ha : p a = true
    · rw [List.find?_cons_of_pos _ ha] at h
      rw [List.cons_append, List.find?_cons_of_pos _ ha]
      exact h
    · rw [List.find?_cons_of_neg _ ha] at h
      rw [List.cons_append, List.find?_cons_of_neg _ ha]
      exact ih h

theorem find?_append_none {α : Type} (p : α → Bool) (l₁ l₂ : List α)
    (h : l₁.find? p = none) : (l₁ ++ l₂).find? p = l₂.find? p := by
  induction l₁ with
  | nil => simp
  | cons a t ih =>
    by_cases ha : p a = true
    · rw [List.find?_cons_of_pos _ ha] at h
      exact absurd h (by simp)
    · rw [List.find?_cons_of_neg _ ha] at h
      rw [List.cons_append, List.find?_cons_of_neg _ ha]
      exact ih h

theorem lookupCS_update (k : Option Int) (v : Chunk) :
    ∀ (m : List (Option Int × Chunk)) (k' : Option Int),
      lookupCS (m.map (fun p => if p.1 = k then (k, v) else p)) k'
        = if k' = k ∧ m.any (fun p => decide (p.1 = k)) = true then some v
          else lookupCS m k' := by
  intro m
  induction m with
  | nil =>
    intro k'
    simp [lookupCS]
  | cons p t ih =>
    intro k'
    rw [List.map_cons]
    by_cases hp : p.1 = k
    · rw [if_pos hp]
      by_cases hk : k' = k
      · have hL : lookupCS ((k, v) :: t.map (fun p => if p.1 = k then (k, v) else p)) k'
            = some v := by
          unfold lookupCS
          rw [List.find?_cons_of_pos _ (by simpa using hk.symm)]
          rfl
        rw [hL, if_pos ⟨hk, by simp [List.any_cons, hp]⟩]
      · have hL : lookupCS ((k, v) :: t.map (fun p => if p.1 = k then (k, v) else p)) k'
            = lookupCS (t.map (fun p => if p.1 = k then (k, v) else p)) k' := by
          unfold lookupCS
          rw [List.find?_cons_of_neg _ (by
            simp only [decide_eq_true_eq]
            exact fun h => hk h.symm)]
        have hR : lookupCS (p :: t) k' = lookupCS t k' := by
          unfold lookupCS
          rw [List.find?_cons_of_neg _ (by
            simp only [decide_eq_true_eq]
            exact fun h => hk (hp.symm.trans h).symm)]
        rw [hL, ih k', if_neg (by rintro ⟨rfl, -⟩; exact hk rfl),
          if_neg (by rintro ⟨rfl, -⟩; exact hk rfl), hR]
    · rw [if_neg hp]
      by_cases hpk : p.1 = k'
      · have hL : lookupCS (p :: t.map (fun p => if p.1 = k then (k, v) else p)) k'
            = some p.2 := by
          unfold lookupCS
          rw [List.find?_cons_of_pos _ (by simpa using hpk)]
          rfl
        have hR : lookupCS (p :: t) k' = some p.2 := by
          unfold lookupCS
          rw [List.find?_cons_of_pos _ (by simpa using hpk)]
          rfl
        have hcond : ¬ (k' = k ∧ ((p :: t).any fun p => decide (p.1 = k)) = true) := by
          rintro ⟨rfl, -⟩
          exact hp hpk
        rw [hL, if_neg hcond, hR]
      · have hL : lookupCS (p :: t.map (fun p => if p.1 = k then (k, v) else p)) k'
            = lookupCS (t.map (fun p => if p.1 = k then (k, v) else p)) k' := by
          unfold lookupCS
          rw [List.find?_cons_of_neg _ (by simpa using hpk)]
        have hR : lookupCS (p :: t) k' = lookupCS t k' := by
          unfold lookupCS
          rw [List.find?_cons_of_neg _ (by simpa using hpk)]
        have hany : ((p :: t).any fun p => decide (p.1 = k))
            = (t.any fun p => decide (p.1 = k)) := by
          simp [List.any_cons, hp]
        rw [hL, ih k', hR, hany]

theorem lookupCS_append_single (k : Option Int) (v : Chunk) :
    ∀ (m : List (Option Int × Chunk)) (k' : Option Int),
      m.any (fun p => decide (p.1 = k)) = false →
      lookupCS (m ++ [(k, v)]) k' = if k' = k then some v else lookupCS m k' := by
  intro m
  induction m with
  | nil =>
    intro k' _
    rw [List.nil_append]
    by_cases hk : k' = k
    · unfold lookupCS
      rw [List.find?_cons_of_pos _ (by simpa using hk.symm), if_pos hk]
      rfl
    · unfold lookupCS
      rw [List.find?_cons_of_neg _ (by
          simp only [decide_eq_true_eq]
          exact fun h => hk h.symm),
        if_neg hk]
  | cons p t ih =>
    intro k' hany
    simp only [List.any_cons, Bool.or_eq_false_iff] at hany
    obtain ⟨hp, ht⟩ := hany
    have hpk : p.1 ≠ k := by simpa using hp
    by_cases hmatch : p.1 = k'
    · have hL : lookupCS ((p :: t) ++ [(k, v)]) k' = some p.2 := by
        unfold lookupCS
        rw [List.cons_append, List.find?_cons_of_pos _ (by simpa using hmatch)]
        rfl
      have hR : lookupCS (p :: t) k' = some p.2 := by
        unfold lookupCS
        rw [List.find?_cons_of_pos _ (by simpa using hmatch)]
        rfl
      rw [hL, if_neg (fun h : k' = k => hpk (h ▸ hmatch)), hR]
    · have hL : lookupCS ((p :: t) ++ [(k, v)]) k' = lookupCS (t ++ [(k, v)]) k' := by
        unfold lookupCS
        rw [List.cons_append, List.find?_cons_of_neg _ (by simpa using hmatch)]
      have hR : lookupCS (p :: t) k' = lookupCS t k' := by
        unfold lookupCS
        rw [List.find?_cons_of_neg _ (by simpa using hmatch)]
      rw [hL, hR, ih k' ht]

theorem lookupCS_mapSet (m : List (Option Int × Chunk)) (k : Option Int) (v : Chunk)
    (k' : Option Int) :
    lookupCS (mapSet m k v) k' = if k' = k then some v else lookupCS m k' := by
  unfold mapSet
  by_cases h : m.any (fun p => decide (p.1 = k)) = true
  · rw [if_pos h, lookupCS_update]
    by_cases hk : k' = k
    · simp [hk, h]
    · simp [hk]
  · rw [if_neg h]
    exact lookupCS_append_single k v m k' (by
      rw [← Bool.not_eq_true]
      exact h)

/-- **C3 (amended).** The insert path performs no validation at all: every
extracted candidate is stored keyed by its index, the last write for an index
wins, and neither `index < total` nor agreement of `total` with previously
stored entries is checked (so entries with `index ≥ total` are stored). -/
theorem C3_insert_is_unvalidated_last_write_wins :
    ∀ (cs : List Chunk) (m : List (Option Int × Chunk)) (k : Option Int),
      lookupCS (insertAll m cs) k
        = match cs.reverse.find? (fun c => decide (c.index = k)) with
          | some c => some c
          | none => lookupCS m k := by
  intro cs
  induction cs with
  | nil => intro m k; rfl
  | cons c cs ih =>
    intro m k
    show lookupCS (insertAll (mapSet m c.index c) cs) k = _
    rw [ih, List.reverse_cons]
    cases hf : cs.reverse.find? (fun d => decide (d.index = k)) with
    | some d => rw [find?_append_some _ d _ _ hf]
    | none =>
      rw [find?_append_none _ _ _ hf, lookupCS_mapSet]
      by_cases hc : c.index = k
      · rw [List.find?_cons_of_pos _ (by simpa using hc), if_pos hc.symm]
      · rw [List.find?_cons_of_neg _ (by simpa using hc), List.find?_nil,
          if_neg (fun h => hc h.symm)]

/-- **C4 (amended).** `extractAllChunks` recomputes the checksum of every
cleaned payload and keeps only candidates whose recomputed checksum equals the
declared one (mismatches are dropped without a fatal error); hence flipping a
payload character rejects the fragment exactly when it changes the recomputed
checksum — a flip that collides on the 4-character fingerprint is still
accepted. -/
theorem C4_extract_discards_checksum_mismatch :
    ∀ (text : List Nat), ∀ c ∈ extractAllChunks text,
      calculateChecksum c.payload = c.checksum := by
  intro text c hc
  rcases List.mem_filterMap.mp hc with ⟨seg, _, hf⟩
  simp only at hf
  split at hf
  · exact absurd hf (by simp)
  · split at hf
    · exact absurd hf (by simp)
    · split at hf
      · rename_i hcond
        obtain rfl := (Option.some.inj hf).symm
        exact hcond.2
      · exact absurd hf (by simp)

/-- Witness for the amended C4: the accepted chunk of a concrete valid volume
carries a payload whose recomputed checksum equals the declared `"BSZK"`. -/
theorem C4_extract_discards_checksum_mismatch_witness :
    calculateChecksum
        ((⟨[73], some 1, some 0, [66, 83, 90, 75], [19968, 19968, 19968]⟩ : Chunk)).payload
      = ((⟨[73], some 1, some 0, [66, 83, 90, 75], [19968, 19968, 19968]⟩ : Chunk)).checksum :=
  C4_extract_discards_checksum_mismatch
    [71, 67, 58, 73, 58, 49, 58, 48, 58, 66, 83, 90, 75, 58, 19968, 19968, 19968] _
    (by decide)

end GhostComm


namespace GhostComm

/-! ### Volume chunking round-trip -/

theorem splitOnChar_of_not_mem (c : Nat) : ∀ (a : List Nat), c ∉ a →
    splitOnChar c a = [a] := by
  intro a
  induction a with
  | nil => intro _; rfl
  | cons x t ih =>
    intro h
    simp only [List.mem_cons, not_or] at h
    have hx : ¬ (x = c) := fun hxc => h.1 hxc.symm
    simp only [splitOnChar, if_neg hx]
    rw [ih h.2]

theorem splitOnChar_sep (c : Nat) : ∀ (a b : List Nat), c ∉ a →
    splitOnChar c (a ++ c :: b) = a :: splitOnChar c b := by
  intro a b
  induction a with
  | nil =>
    intro _
    simp [splitOnChar]
  | cons x t ih =>
    intro h
    simp only [List.mem_cons, not_or] at h
    have hx : ¬ (x = c) := fun hxc => h.1 hxc.symm
    rw [List.cons_append]
    simp only [splitOnChar, if_neg hx]
    rw [ih h.2]

theorem toDecGo_chars : ∀ fuel n, ∀ c ∈ toDecGo fuel n, 48 ≤ c ∧ c ≤ 57 := by
  intro fuel
  induction fuel with
  | zero =>
    intro n c hc
    simp only [toDecGo, List.mem_singleton] at hc
    subst hc
    have : n % 10 < 10 := Nat.mod_lt _ (by norm_num)
    omega
  | succ fuel ih =>
    intro n c hc
    simp only [toDecGo] at hc
    by_cases hn : n < 10
    · rw [if_pos hn] at hc
      simp only [List.mem_singleton] at hc
      omega
    · rw [if_neg hn] at hc
      rcases List.mem_append.mp hc with hc | hc
      · exact ih _ c hc
      · simp only [List.mem_singleton] at hc
        have : n % 10 < 10 := Nat.mod_lt _ (by norm_num)
        omega

theorem toDec_ne_delim (n : Nat) : ∀ c ∈ toDec n, c ≠ 58 := by
  intro c hc
  have := toDecGo_chars n n c hc
  omega

theorem intercalate_single (sep : List Nat) (a : List Nat) :
    List.intercalate sep [a] = a := by
  simp [List.intercalate]

/-- The `:`-field parse of a produced volume string: the payload is the sixth
field. -/
theorem volumePayload_header (t total idx cs payload : List Nat)
    (ht : ∀ c ∈ t, c ≠ 58) (htot : ∀ c ∈ total, c ≠ 58) (hidx : ∀ c ∈ idx, c ≠ 58)
    (hcs : ∀ c ∈ cs, c ≠ 58) (hp : ∀ c ∈ payload, c ≠ 58) :
    volumePayload ([71, 67, 58] ++ t ++ [58] ++ total ++ [58] ++ idx ++ [58]
        ++ cs ++ [58] ++ payload)
      = payload := by
  have hGC : (58 : Nat) ∉ [71, 67] := by decide
  have hsplit : splitOnChar 58 ([71, 67, 58] ++ t ++ [58] ++ total ++ [58] ++ idx ++ [58]
      ++ cs ++ [58] ++ payload)
      = [71, 67] :: t :: total :: idx :: cs :: [payload] := by
    have e1 : [71, 67, 58] ++ t ++ [58] ++ total ++ [58] ++ idx ++ [58] ++ cs ++ [58]
        ++ payload
        = [71, 67] ++ 58 :: (t ++ 58 :: (total ++ 58 :: (idx ++ 58 :: (cs
            ++ 58 :: payload)))) := by
      simp only [List.append_assoc, List.cons_append, List.singleton_append,
        List.nil_append]
    rw [e1, splitOnChar_sep 58 [71, 67] _ hGC,
      splitOnChar_sep 58 t _ (fun h => ht 58 h rfl),
      splitOnChar_sep 58 total _ (fun h => htot 58 h rfl),
      splitOnChar_sep 58 idx _ (fun h => hidx 58 h rfl),
      splitOnChar_sep 58 cs _ (fun h => hcs 58 h rfl),
      splitOnChar_of_not_mem 58 payload (fun h => hp 58 h rfl)]
  unfold volumePayload
  rw [hsplit]
  show List.intercalate [58] [payload] = payload
  exact intercalate_single [58] payload

theorem chunks_flatten (e : Nat) (he : 0 < e) :
    ∀ (n : Nat) (s : List Nat), s.length ≤ n →
      ((List.range ((s.length + e - 1) / e)).map (fun i => ((s.drop (i * e)).take e))).flatten
        = s := by
  intro n
  induction n with
  | zero =>
    intro s hs
    have h0 : s = [] := List.length_eq_zero.mp (by omega)
    subst h0
    have hz : ((([] : List Nat).length + e - 1) / e) = 0 := by
      simp only [List.length_nil, Nat.zero_add]
      exact Nat.div_eq_of_lt (by omega)
    rw [hz]
    rfl
  | succ n ih =>
    intro s hs
    by_cases h0 : s = []
    · subst h0
      have hz : ((([] : List Nat).length + e - 1) / e) = 0 := by
        simp only [List.length_nil, Nat.zero_add]
        exact Nat.div_eq_of_lt (by omega)
      rw [hz]
      rfl
    · have hlen : 0 < s.length := List.length_pos.mpr h0
      have hdroplen : (s.drop e).length = s.length - e := by simp
      have htot : (s.length + e - 1) / e = ((s.drop e).length + e - 1) / e + 1 := by
        rw [hdroplen]
        by_cases hle : e ≤ s.length
        · have hsplit : s.length + e - 1 = (s.length - e + e - 1) + e := by omega
          rw [hsplit, Nat.add_div_right _ he]
        · have h1 : s.length - e = 0 := by omega
          rw [h1]
          have hlhs : (s.length + e - 1) / e = 1 := by
            apply Nat.div_eq_of_lt_le <;> omega
          have hrhs : (0 + e - 1) / e = 0 := Nat.div_eq_of_lt (by omega)
          rw [hlhs, hrhs]
      rw [htot, List.range_succ_eq_map, List.map_cons]
      simp only [Nat.zero_mul, List.drop_zero, List.map_map]
      rw [List.flatten_cons]
      have hmap : (List.range (((s.drop e).length + e - 1) / e)).map
          ((fun i => (s.drop (i * e)).take e) ∘ Nat.succ)
          = (List.range (((s.drop e).length + e - 1) / e)).map
            (fun i => (((s.drop e).drop (i * e)).take e)) := by
        apply List.map_congr_left
        intro i _
        simp only [Function.comp_apply]
        rw [List.drop_drop]
        congr 2
        rw [Nat.succ_mul]
        ring
      rw [hmap, ih (s.drop e) (by rw [hdroplen]; omega)]
      exact List.take_append_drop e s

/-- **C8.** For every delimiter-free symbol string `s`, type tag `t` and
character limit `m` with positive effective payload size (`40 < m`),
`createVolumes` succeeds and produces exactly `⌈len(s) / (m - 40)⌉` volume
strings, and the payload fields of those volumes, concatenated in index
order, reproduce `s` exactly. -/
theorem C8_chunk_roundtrip (t s : List Nat) (m : Nat) (hm : 40 < m)
    (ht : ∀ c ∈ t, c ≠ 58) (hs : ∀ c ∈ s, c ≠ 58) :
    ∃ vols, createVolumes t s m = some vols ∧
      vols.length = (s.length + (m - 40) - 1) / (m - 40) ∧
      (vols.map volumePayload).flatten = s := by
  have he : 0 < m - 40 := by omega
  refine ⟨_, by rw [createVolumes, if_neg (by omega)], ?_, ?_⟩
  · simp
  · have hpay : ∀ i, volumePayload ([71, 67, 58] ++ t ++ [58]
        ++ toDec ((s.length + (m - 40) - 1) / (m - 40)) ++ [58] ++ toDec i ++ [58]
        ++ calculateChecksum ((s.drop (i * (m - 40))).take (m - 40)) ++ [58]
        ++ (s.drop (i * (m - 40))).take (m - 40))
        = (s.drop (i * (m - 40))).take (m - 40) := by
      intro i
      apply volumePayload_header _ _ _ _ _ ht (toDec_ne_delim _) (toDec_ne_delim _)
        (calculateChecksum_ne_delim _)
      intro c hc
      exact hs c (List.mem_of_mem_drop (List.mem_of_mem_take hc))
    rw [List.map_map]
    have hcongr : ((List.range ((s.length + (m - 40) - 1) / (m - 40))).map
        (volumePayload ∘ fun i => [71, 67, 58] ++ t ++ [58]
          ++ toDec ((s.length + (m - 40) - 1) / (m - 40)) ++ [58] ++ toDec i ++ [58]
          ++ calculateChecksum ((s.drop (i * (m - 40))).take (m - 40)) ++ [58]
          ++ (s.drop (i * (m - 40))).take (m - 40)))
        = (List.range ((s.length + (m - 40) - 1) / (m - 40))).map
          (fun i => ((s.drop (i * (m - 40))).take (m - 40))) := by
      apply List.map_congr_left
      intro i _
      exact hpay i
    rw [hcongr]
    exact chunks_flatten (m - 40) he s.length s le_rfl

/-- Witness for C8 at `t = "I"`, `s = "!"`, `m = 41`. -/
theorem C8_chunk_roundtrip_witness :
    ∃ vols, createVolumes [73] [33] 41 = some vols ∧
      vols.length = (([33] : List Nat).length + (41 - 40) - 1) / (41 - 40) ∧
      (vols.map volumePayload).flatten = [33] :=
  C8_chunk_roundtrip [73] [33] 41 (by norm_num) (by decide) (by decide)

end GhostComm
